import Mathlib

/-!
Verification of the data-assembly pipeline of `src/scripts/dcpg_data.py`:
position-index construction, sparse-to-dense alignment, DNA window extraction,
neighbour-CpG extraction, masked statistics, coverage filtering, chunking and
the configuration checks of `App.main`.  The Python functions are embedded as
executable Lean definitions; numpy asserts are modelled as `Option`/guard
failures.
-/

set_option maxHeartbeats 1000000

namespace DeepCpG

/-- Modelled from the spec: the `CpgNan` sentinel, "a fixed out-of-range
integer constant (e.g. -1)"; the constant `dat.CPG_NAN` lives outside `src/`. -/
def CPG_NAN : Int := -1

/-- Boolean check that a list of integers is non-decreasing, mirroring the
`np.all(pos == np.sort(pos))` assertions of `map_values`. -/
def isSortedLe : List Int → Bool
  | [] => true
  | [_] => true
  | a :: b :: t => decide (a ≤ b) && isSortedLe (b :: t)

/-- The numpy scatter assignment `target_values[idx] = values`: write the
values one by one at the listed indices. -/
def scatter : List Int → List Nat → List Int → List Int
  | base, i :: is, v :: vs => scatter (base.set i v) is vs
  | base, _, _ => base

/-- The `(pos, values)` series of `map_values` after the filter
`idx = np.in1d(pos, target_pos); pos = pos[idx]; values = values[idx]`. -/
def mvPairs (values pos target_pos : List Int) : List (Int × Int) :=
  (pos.zip values).filter fun pv => decide (pv.1 ∈ target_pos)

/-- The scatter indices `idx = np.in1d(target_pos, pos).nonzero()[0]` of
`map_values`, computed against the already filtered source positions. -/
def mvIdx (values pos target_pos : List Int) : List Nat :=
  (List.range target_pos.length).filter fun i =>
    decide (target_pos.getD i 0 ∈ (mvPairs values pos target_pos).map Prod.fst)

/-- Embedding of `map_values` (src/scripts/dcpg_data.py, lines 112-132).
The sparse series is filtered to positions contained in the target
(`np.in1d(pos, target_pos)`, see `mvPairs`), the output is created with
length `len(target_pos)` and filled with `CPG_NAN`, and the filtered values
are scattered at the indices where a target position occurs among the
filtered source positions (`mvIdx`).  The four `assert` statements are
modelled as guards returning `none`. -/
def map_values (values pos target_pos : List Int) : Option (List Int) :=
  if values.length = pos.length ∧ isSortedLe pos ∧ isSortedLe target_pos then
    if (mvIdx values pos target_pos).length
          = ((mvPairs values pos target_pos).map Prod.snd).length ∧
        (mvIdx values pos target_pos).map (fun i => target_pos.getD i 0)
          = (mvPairs values pos target_pos).map Prod.fst then
      some (scatter (List.replicate target_pos.length CPG_NAN)
        (mvIdx values pos target_pos)
        ((mvPairs values pos target_pos).map Prod.snd))
    else none
  else none

/-- Insert a value into a strictly sorted list, keeping it strictly sorted and
duplicate-free. -/
def insertSorted [LinearOrder α] (x : α) : List α → List α
  | [] => [x]
  | y :: ys =>
    if x < y then x :: y :: ys
    else if x = y then y :: ys
    else y :: insertSorted x ys

/-- Sorted deduplication of a list, modelling `np.unique` (and the sorted
group keys produced by pandas `groupby`). -/
def sortDedup [LinearOrder α] (l : List α) : List α := l.foldr insertSorted []

/-- The positions recorded for chromosome `c` in a (chromo, pos) table. -/
def posOf (c : String) (t : List (String × Int)) : List Int :=
  (t.filter fun r => decide (r.1 = c)).map Prod.snd

/-- One `groupby('chromo') / np.unique / sort_values` pass of
`prepro_pos_table`: rows grouped by chromosome (group keys sorted), each
group's positions sorted and de-duplicated. -/
def dedupSortTable (t : List (String × Int)) : List (String × Int) :=
  ((sortDedup (t.map Prod.fst)).map fun c =>
    (sortDedup (posOf c t)).map fun p => (c, p)).flatten

/-- Embedding of `prepro_pos_table` (lines 40-56): fold the input tables with
`pd.concat` followed by the groupby/unique/sort pass after every step; `none`
models the `None` returned for an empty table list. -/
def prepro_pos_table (tables : List (List (String × Int))) :
    Option (List (String × Int)) :=
  match tables with
  | [] => none
  | t :: ts =>
    some (ts.foldl (fun acc t2 => dedupSortTable (acc ++ t2)) (dedupSortTable t))

/-- The chunk count `int(np.ceil(len(chromo_pos) / opts.chunk_size))` of the
chunk loop (line 409). -/
def nbChunk (n cs : Nat) : Nat := (n + cs - 1) / cs

/-- Embedding of the chunk loop slicing (lines 409-415): chunk `k` is
`chromo_pos[k*cs : min(n, k*cs + cs)]`. -/
def chunkSlices (l : List α) (cs : Nat) : List (List α) :=
  (List.range (nbChunk l.length cs)).map fun k =>
    (l.drop (k * cs)).take (min l.length (k * cs + cs) - k * cs)

/-- Collect a list of optional results, failing if any entry failed. -/
def allSome : List (Option α) → Option (List α)
  | [] => some []
  | none :: _ => none
  | some a :: t => (allSome t).map fun l => a :: l

/-- Modelled from the spec: the nucleotide encoding used by
`deepcpg.data.dna` (outside `src/`), fixed by the assertions of
`extract_seq_windows` (`C` encodes to 3, `G` to 2) and the spec's
{A,C,G,T} -> {0,1,2,3} alphabet with `N` as the unknown-base marker. -/
def charToInt (c : Char) : Int :=
  if c = 'A' then 0
  else if c = 'T' then 1
  else if c = 'G' then 2
  else if c = 'C' then 3
  else 4

/-- The raw slice `seq[max(0, p - delta) : min(len(seq), p + delta + 1)]` of
`extract_seq_windows` (line 96), for the 0-based position `p0` and window
radius `delta`. -/
def swWin (seq : List Char) (p0 delta : Int) : List Char :=
  (seq.drop (p0 - delta).toNat).take
    (min seq.length (p0 + delta + 1).toNat - (p0 - delta).toNat)

/-- The window after `'N'`-padding a slice that ran past a sequence end
(lines 97-99); a full slice is left unchanged. -/
def swPadded (seq : List Char) (p0 delta : Int) (wlen : Nat) : List Char :=
  if (swWin seq p0 delta).length < wlen then
    List.replicate (delta - p0).toNat 'N' ++ swWin seq p0 delta ++
      List.replicate (p0 + delta + 1 - (seq.length : Int)).toNat 'N'
  else swWin seq p0 delta

/-- One window of `extract_seq_windows` (lines 87-100): slice, pad, and check
the `assert len(win) == wlen`. -/
def seqWindow (seq : List Char) (p : Int) (wlen : Nat) (seqIndex : Int) :
    Option (List Char) :=
  if (swPadded seq (p - seqIndex) ((wlen / 2 : Nat) : Int) wlen).length
      = wlen then
    some (swPadded seq (p - seqIndex) ((wlen / 2 : Nat) : Int) wlen)
  else none

/-- Random imputation of unknown bases (lines 102-104): each cell that
encodes `'N'` (value 4) is replaced by an arbitrary draw mapped into
[0, 4); the numpy random stream is modelled by the function `rand1`. -/
def imputeRow (rand1 : Nat → Int) (j : Nat) : List Int → List Int
  | [] => []
  | v :: vs => (if v = 4 then rand1 j % 4 else v) :: imputeRow rand1 (j + 1) vs

/-- Encode and impute every extracted window, row `i` drawing from
`rand i`. -/
def encodeRows (rand : Nat → Nat → Int) (i : Nat) :
    List (List Char) → List (List Int)
  | [] => []
  | w :: ws => imputeRow (rand i) 0 (w.map charToInt) :: encodeRows rand (i + 1) ws

/-- Embedding of `extract_seq_windows` (lines 74-109): upper-case the
sequence, slice and pad one window per position, encode the characters and
randomly impute the unknown bases.  A failed window-length assertion yields
`none`. -/
def extract_seq_windows (seq : List Char) (pos : List Int) (wlen : Nat)
    (seqIndex : Int) (rand : Nat → Nat → Int) : Option (List (List Int)) :=
  (allSome (pos.map fun p => seqWindow (seq.map Char.toUpper) p wlen seqIndex)).map
    (fun ws => encodeRows rand 0 ws)

/-- Count of non-CpgNan entries of a row (`np.sum(~mask, axis=1)` over the
masked matrix). -/
def countValid (row : List Int) : Nat :=
  (row.filter fun v => decide (v ≠ CPG_NAN)).length

/-- Modelled from the spec: a reducer of the statistics catalogue applied
through a masked array "must correctly ignore masked/CpgNan entries"
(`deepcpg.data.stats` lives outside `src/`); `reducer` is the underlying
statistic on the unmasked values. -/
def maskedReduce (reducer : List Int → Int) (row : List Int) : Int :=
  reducer (row.filter fun v => decide (v ≠ CPG_NAN))

/-- Embedding of the per-site statistics block (lines 441-454): compute the
masked statistic of every row of `cpg_mat`, then overwrite the rows having
fewer than `stats_cov` unmasked values with `CPG_NAN`. -/
def siteStats (reducer : List Int → Int) (statsCov : Int)
    (mat : List (List Int)) : List Int :=
  List.zipWith (fun m s => if m then CPG_NAN else s)
    (mat.map fun row => decide ((countValid row : Int) < statsCov))
    (mat.map (maskedReduce reducer))

/-- Per-cell data entering the window-statistics block for one canonical
position: the neighbour state/dist rows of the chunk file and the cell's own
entry of the CpG matrix. -/
structure CellRow where
  nbState : List Int
  nbDist : List Int
  ownState : Int

/-- Embedding of the window-statistics block (lines 507-540) for one
position: concatenate every cell's neighbour states with the cell's own state
(at distance 0), mask entries with `state == CPG_NAN or dist > wlen // 2`,
apply the masked reducer and write `CPG_NAN` when everything is masked. -/
def winStatCode (reducer : List Int → Int) (wlen : Int)
    (cells : List CellRow) : Int :=
  let states := (cells.map fun c => c.nbState ++ [c.ownState]).flatten
  let dists := (cells.map fun c => c.nbDist ++ [(0 : Int)]).flatten
  let kept := ((states.zip dists).filter fun sd =>
    !(decide (sd.1 = CPG_NAN) || decide (wlen / 2 < sd.2))).map Prod.fst
  if kept.isEmpty then CPG_NAN else reducer kept

/-- The per-window statistic as the claim words it: pool, per cell, the
(state, distance) neighbour pairs together with the cell's own value as a
distance-0 entry, keep the entries whose state is not `CPG_NAN` and whose
distance is at most `wlen / 2`, reduce, and yield `CPG_NAN` on an empty
pool. -/
def winStatSpec (reducer : List Int → Int) (wlen : Int)
    (cells : List CellRow) : Int :=
  let pool := (cells.map fun c =>
    c.nbState.zip c.nbDist ++ [(c.ownState, (0 : Int))]).flatten
  let kept := (pool.filter fun sd =>
    decide (sd.1 ≠ CPG_NAN) && decide (sd.2 ≤ wlen / 2)).map Prod.fst
  if kept = [] then CPG_NAN else reducer kept

/-- Modelled from the spec (§4.4; `KnnCpgFeatureExtractor` lives outside
`src/`): for a target position `p`, the `k` nearest observed sites strictly to
the left and strictly to the right of `p`, in left-to-right order,
`none`-padded on a side with fewer than `k` neighbours; each present entry
carries (methylation state, genomic distance to `p`). -/
def knnNeighbors (k : Nat) (p : Int) (cPos cVals : List Int) :
    List (Option (Int × Int)) :=
  let pairs := cPos.zip cVals
  let left := pairs.filter fun q => decide (q.1 < p)
  let right := pairs.filter fun q => decide (p < q.1)
  let leftK := left.drop (left.length - k)
  let rightK := right.take k
  (List.replicate (k - leftK.length) none ++
      leftK.map fun q => some (q.2, p - q.1)) ++
    (rightK.map (fun q => some (q.2, q.1 - p)) ++
      List.replicate (k - rightK.length) none)

/-- Embedding of the neighbour write-out (lines 486-493): missing neighbours
are substituted by `CPG_NAN` in both the state array and the dist array. -/
def knnStateDist (k : Nat) (p : Int) (cPos cVals : List Int) :
    List Int × List Int :=
  let e := knnNeighbors k p cPos cVals
  (e.map fun o => (o.map Prod.fst).getD CPG_NAN,
   e.map fun o => (o.map Prod.snd).getD CPG_NAN)

/-- Result of the per-chromosome coverage filter (lines 381-392): `crash`
models a failing `assert np.all(cov >= 1)`, `skip` the `continue` taken when
no site passes the filter, `keep` the surviving positions and matrix rows. -/
inductive CovResult where
  | crash
  | skip
  | keep (pos : List Int) (mat : List (List Int))
deriving DecidableEq

/-- Embedding of the coverage filter: compute the per-position coverage over
the cell axis of `cpg_mat`, assert it is at least 1 everywhere, keep only the
positions whose coverage reaches `cpg_cov`, and skip the chromosome when none
does. -/
def coverageFilter (pos : List Int) (mat : List (List Int)) (cpgCov : Int) :
    CovResult :=
  if mat.all fun row => decide (1 ≤ countValid row) then
    let kept := (pos.zip mat).filter fun r =>
      decide (cpgCov ≤ (countValid r.2 : Int))
    if kept.length = 0 then CovResult.skip
    else CovResult.keep (kept.map Prod.fst) (kept.map Prod.snd)
  else CovResult.crash

/-- A single-cell table restricted to one chromosome: parallel (pos, value)
columns, sorted by position. -/
structure CellTable where
  pos : List Int
  values : List Int

/-- Embedding of `map_cpg_tables` (lines 135-146) for one chromosome: map
every cell's sparse series onto the canonical chromosome positions. -/
def map_cpg_tables (cells : List CellTable) (chromoPos : List Int) :
    Option (List (List Int)) :=
  allSome (cells.map fun c => map_values c.values c.pos chromoPos)

/-- Row `i` of `np.vstack(list(chromo_outputs['cpg'].values())).T`, the
site-by-cell matrix built from the per-cell mapped columns. -/
def cpgMatRows (cols : List (List Int)) (n : Nat) : List (List Int) :=
  (List.range n).map fun i => cols.map fun col => col.getD i CPG_NAN

/-- The per-chromosome slice of `App.main` relevant to the coverage claim:
canonical positions as the sorted union of the cells' positions (what
`prepro_pos_table` yields for one chromosome), the dense per-cell mapping,
then the coverage filter.  `none` models an assertion failure inside
`map_values`. -/
def chromoCoverage (cells : List CellTable) (cpgCov : Int) : Option CovResult :=
  let chromoPos := sortDedup (cells.map CellTable.pos).flatten
  (map_cpg_tables cells chromoPos).map fun cols =>
    coverageFilter chromoPos (cpgMatRows cols chromoPos.length) cpgCov

/-- Command-line options relevant to the configuration checks; a
`profiles`/`pos_file`/`dna_db` flag is true when the option was supplied,
`dna_wlen` carries its argparse default 1001 when not supplied, and
`cpg_wlen` has no default. -/
structure Opts where
  cpg_profiles : Bool
  bulk_profiles : Bool
  pos_file : Bool
  dna_db : Bool
  dna_wlen : Int
  cpg_wlen : Option Int
deriving DecidableEq

/-- Observable phases of `App.main` after the configuration checks, in
program order (profile reading happens after every check). -/
inductive Phase where
  | readCpgProfiles
  | readBulkProfiles
  | buildPosTable
  | processChromosomes
deriving DecidableEq

/-- Python truthiness of an optional integer option (`None` and `0` are
falsy). -/
def optTruthy : Option Int → Bool
  | none => false
  | some w => decide (w ≠ 0)

/-- Embedding of the configuration-check prefix of `App.main`
(lines 299-307) followed by the phases the run would perform: a raise aborts
with an error before any phase happens.  (`raise '--dna_wlen must be odd!'`
raises a plain string; in Python 3 this still aborts the program, as a
`TypeError`.) -/
def runMain (o : Opts) : Except String (List Phase) :=
  if ¬ (o.cpg_profiles ∨ o.bulk_profiles) ∧ ¬ (o.pos_file ∨ o.dna_db) then
    Except.error "Position table and DNA database expected!"
  else if o.dna_wlen ≠ 0 ∧ o.dna_wlen % 2 = 0 then
    Except.error "--dna_wlen must be odd!"
  else if optTruthy o.cpg_wlen ∧ (o.cpg_wlen.getD 0) % 2 ≠ 0 then
    Except.error "--cpg_wlen must be even!"
  else
    Except.ok ((if o.cpg_profiles then [Phase.readCpgProfiles] else []) ++
      (if o.bulk_profiles then [Phase.readBulkProfiles] else []) ++
      [Phase.buildPosTable, Phase.processChromosomes])

/-- True when an optional CpG window length was supplied and is odd. -/
def oddCpgOpt : Option Int → Bool
  | some w => decide (w % 2 ≠ 0)
  | none => false

/-- The claim's notion of an invalid configuration: no single-cell or bulk
profiles together with neither a position file nor a DNA database, or an even
DNA window length, or an odd CpG window length. -/
def configInvalid (o : Opts) : Bool :=
  (!o.cpg_profiles && !o.bulk_profiles && !o.pos_file && !o.dna_db) ||
  decide (o.dna_wlen % 2 = 0) ||
  oddCpgOpt o.cpg_wlen

/-- The invalid configurations the code actually rejects: as the claim, but
with the even DNA window length required to be nonzero (Python's `if
opts.dna_wlen` skips the parity check for 0). -/
def configInvalidAmended (o : Opts) : Bool :=
  (!o.cpg_profiles && !o.bulk_profiles && !o.pos_file && !o.dna_db) ||
  (decide (o.dna_wlen ≠ 0) && decide (o.dna_wlen % 2 = 0)) ||
  oddCpgOpt o.cpg_wlen

/-- The optional groups of one written chunk file, `none` when the
corresponding write block of `App.main` does not run. -/
structure ShardOut where
  pos : List Int
  dna : Option (List (List Int))
  cpgNb : Option (List (List (List Int × List Int)))
  winStats : Option (List (Int × List (List Int)))

/-- Embedding of the conditional write blocks of the chunk loop
(lines 469-540): DNA windows are written when a DNA database was loaded,
neighbour windows when `opts.cpg_wlen` is truthy, and window statistics only
when `win_stats_meta is not None and opts.cpg_wlen` (line 507). -/
def writeShard (chunkPos : List Int) (chunkMat : List (List Int))
    (cells : List CellTable) (hasDna : Bool) (chromoDna : List Char)
    (dnaWlen : Nat) (rand : Nat → Nat → Int) (cpgWlen : Option Int)
    (winStatsMeta : Option (List (List Int → Int)))
    (winStatsWlen : List Int) : ShardOut :=
  let k := (cpgWlen.getD 0).toNat / 2
  let nb := chunkPos.map fun p => cells.map fun c => knnStateDist k p c.pos c.values
  { pos := chunkPos
    dna := if hasDna then extract_seq_windows chromoDna chunkPos dnaWlen 1 rand
           else none
    cpgNb := if optTruthy cpgWlen then some nb else none
    winStats :=
      if winStatsMeta.isSome && optTruthy cpgWlen then
        some (winStatsWlen.map fun w =>
          (w, (List.range chunkPos.length).map fun i =>
            (winStatsMeta.getD []).map fun r =>
              winStatCode r w (((nb.getD i []).zip (chunkMat.getD i [])).map
                fun e => CellRow.mk e.1.1 e.1.2 e.2)))
      else none }

/-! ## Helper lemmas -/

theorem flatten_range_map_slice (l : List α) (cs : Nat) (m : Nat) :
    ((List.range m).map fun k =>
      (l.drop (k * cs)).take (min l.length (k * cs + cs) - k * cs)).flatten
      = l.take (min l.length (m * cs)) := by
  induction m with
  | zero => simp
  | succ m ih =>
    rw [List.range_succ, List.map_append, List.flatten_append, ih]
    simp only [List.map_cons, List.map_nil, List.flatten_cons, List.flatten_nil,
      List.append_nil]
    by_cases h : l.length ≤ m * cs
    · rw [List.drop_eq_nil_of_le h]
      simp only [List.take_nil, List.append_nil]
      have h1 : min l.length (m * cs) = l.length := by omega
      have h2 : min l.length ((m + 1) * cs) = l.length := by
        have : m * cs ≤ (m + 1) * cs := by
          apply Nat.mul_le_mul_right
          omega
        omega
      rw [h1, h2]
    · have hmul : (m + 1) * cs = m * cs + cs := by ring
      have h1 : min l.length (m * cs) = m * cs := by omega
      have h2 : m * cs + (min l.length (m * cs + cs) - m * cs)
          = min l.length ((m + 1) * cs) := by
        rw [hmul]
        omega
      rw [h1, ← h2, List.take_add]

theorem flatten_chunkSlices (l : List α) (cs : Nat) (hcs : 0 < cs) :
    (chunkSlices l cs).flatten = l := by
  unfold chunkSlices
  rw [flatten_range_map_slice]
  have hq := Nat.div_add_mod (l.length + cs - 1) cs
  have hr : (l.length + cs - 1) % cs < cs := Nat.mod_lt _ hcs
  have hle : l.length ≤ nbChunk l.length cs * cs := by
    unfold nbChunk
    set q := (l.length + cs - 1) / cs with hqdef
    set r := (l.length + cs - 1) % cs with hrdef
    have hgen : cs * q = l.length + cs - 1 - r := by omega
    have : q * cs = cs * q := Nat.mul_comm _ _
    omega
  have : min l.length (nbChunk l.length cs * cs) = l.length := by omega
  rw [this, List.take_length]

theorem getD_zipWith_map_map (f : Bool → Int → Int) (g : List Int → Bool)
    (h : List Int → Int) (mat : List (List Int)) (i : Nat)
    (hi : i < mat.length) :
    (List.zipWith f (mat.map g) (mat.map h)).getD i 0
      = f (g (mat.getD i [])) (h (mat.getD i [])) := by
  induction mat generalizing i with
  | nil => simp at hi
  | cons r t ih =>
    cases i with
    | zero => simp [List.getD]
    | succ j =>
      simp only [List.map_cons, List.zipWith_cons_cons, List.getD_cons_succ]
      exact ih j (by simpa using hi)

theorem flatten_map_zip_flatten_map (f g : CellRow → List Int)
    (cells : List CellRow) (h : ∀ c ∈ cells, (f c).length = (g c).length) :
    ((cells.map f).flatten).zip ((cells.map g).flatten)
      = (cells.map fun c => (f c).zip (g c)).flatten := by
  induction cells with
  | nil => simp
  | cons c t ih =>
    simp only [List.map_cons, List.flatten_cons]
    rw [List.zip_append (h c (List.mem_cons_self c t))]
    rw [ih fun x hx => h x (List.mem_cons_of_mem c hx)]

theorem oddCpgOpt_eq_true (x : Option Int) :
    oddCpgOpt x = true ↔ ∃ w, x = some w ∧ w % 2 ≠ 0 := by
  cases x with
  | none => simp [oddCpgOpt]
  | some w => simp [oddCpgOpt]

/-! ## Claim theorems -/

/-- C8: for every chromosome position list of length `n` and every positive
`chunkSize`, the writer partitions the list into `ceil(n / chunkSize)`
contiguous chunks in position order, each of size at most `chunkSize`, with
every position appearing in exactly one chunk; in particular 5 positions with
`chunkSize` 2 yield 3 shards with position counts [2, 2, 1]. -/
theorem chunkSlices_partition (l : List Int) (cs : Nat) (hcs : 0 < cs) :
    (chunkSlices l cs).length = nbChunk l.length cs ∧
    (∀ c ∈ chunkSlices l cs, c.length ≤ cs) ∧
    (chunkSlices l cs).flatten = l ∧
    (chunkSlices ([10, 20, 30, 40, 50] : List Int) 2).map List.length
      = [2, 2, 1] := by
  refine ⟨by simp [chunkSlices], ?_, flatten_chunkSlices l cs hcs, by decide⟩
  intro c hc
  unfold chunkSlices at hc
  obtain ⟨k, _, rfl⟩ := List.mem_map.1 hc
  simp only [List.length_take, List.length_drop]
  omega

/-- C8 witness: the partition property evaluated at a concrete list and chunk
size. -/
theorem chunkSlices_partition_witness :
    0 < 2 ∧
    ((chunkSlices ([7, 8, 9] : List Int) 2).length = nbChunk 3 2 ∧
     (∀ c ∈ chunkSlices ([7, 8, 9] : List Int) 2, c.length ≤ 2) ∧
     (chunkSlices ([7, 8, 9] : List Int) 2).flatten = [7, 8, 9] ∧
     (chunkSlices ([10, 20, 30, 40, 50] : List Int) 2).map List.length
       = [2, 2, 1]) :=
  ⟨by decide, chunkSlices_partition [7, 8, 9] 2 (by decide)⟩

/-- C9 counterexample: `--dna_wlen 0` is an even DNA window length, so this
configuration is invalid in the claim's sense, yet `App.main` runs without a
fatal error because `if opts.dna_wlen` is false for 0. -/
theorem runMain_zero_dna_wlen_no_error :
    configInvalid (Opts.mk true false false false 0 none) = true ∧
    runMain (Opts.mk true false false false 0 none) =
      Except.ok [Phase.readCpgProfiles, Phase.buildPosTable,
        Phase.processChromosomes] := by
  constructor
  · decide
  · rfl

/-- C9 (amended): for every invocation whose configuration is invalid — no
single-cell or bulk profiles together with neither a position file nor a DNA
database, or a nonzero even DNA window length, or an odd CpG window length —
the program fails fatally, with the error raised before any input reading or
per-chromosome processing starts (the error result carries no executed
phase). -/
theorem runMain_config_error (o : Opts) (h : configInvalidAmended o = true) :
    ∃ e, runMain o = Except.error e := by
  obtain ⟨cp, bp, pf, db, dw, cw⟩ := o
  unfold configInvalidAmended at h
  simp only [Bool.or_eq_true, Bool.and_eq_true, Bool.not_eq_true',
    decide_eq_true_eq] at h
  unfold runMain
  by_cases h1 : ¬ (cp = true ∨ bp = true) ∧ ¬ (pf = true ∨ db = true)
  · rw [if_pos h1]
    exact ⟨_, rfl⟩
  · rw [if_neg h1]
    by_cases h2 : dw ≠ 0 ∧ dw % 2 = 0
    · rw [if_pos h2]
      exact ⟨_, rfl⟩
    · rw [if_neg h2]
      by_cases h3 : optTruthy cw = true ∧ (cw.getD 0) % 2 ≠ 0
      · rw [if_pos h3]
        exact ⟨_, rfl⟩
      · exfalso
        rcases h with (h | h) | h
        · exact h1 ⟨by simp [h.1.1.1, h.1.1.2], by simp [h.1.2, h.2]⟩
        · exact h2 h
        · obtain ⟨w, rfl, hw⟩ := (oddCpgOpt_eq_true cw).1 h
          apply h3
          refine ⟨?_, by simpa using hw⟩
          simp only [optTruthy, decide_eq_true_eq]
          intro hw0
          rw [hw0] at hw
          exact hw rfl

/-- C9 witness: a configuration with no profile, no position file and no DNA
database is rejected. -/
theorem runMain_config_error_witness :
    configInvalidAmended (Opts.mk false false false false 1001 none) = true ∧
    ∃ e, runMain (Opts.mk false false false false 1001 none) = Except.error e :=
  ⟨by decide, runMain_config_error _ (by decide)⟩

/-- C6: for every canonical position and requested per-site statistic, the
written value is the reducer applied to the position's per-cell values with
`CPG_NAN` masked out, except that a position with fewer than `stats_cov`
non-CpgNan values gets `CPG_NAN` regardless of the reducer. -/
theorem siteStats_spec (reducer : List Int → Int) (statsCov : Int)
    (mat : List (List Int)) :
    (siteStats reducer statsCov mat).length = mat.length ∧
    ∀ i, i < mat.length →
      (siteStats reducer statsCov mat).getD i 0 =
        if (countValid (mat.getD i []) : Int) < statsCov then CPG_NAN
        else reducer ((mat.getD i []).filter fun v => decide (v ≠ CPG_NAN)) := by
  constructor
  · simp [siteStats]
  · intro i hi
    unfold siteStats
    rw [getD_zipWith_map_map _ _ _ _ _ hi]
    by_cases h : (countValid (mat.getD i []) : Int) < statsCov
    · rw [if_pos (by simpa using h), if_pos h]
    · rw [if_neg (by simpa using h), if_neg h]
      rfl

/-- C3: for every window radius and canonical position, the per-window
statistic pools, across all cells, the neighbour-window (state, distance)
entries together with the position's own per-cell matrix entries treated as
distance-0 neighbours, keeps only entries whose state is not `CPG_NAN` and
whose distance is at most `wlen / 2`, applies the reducer to the pool, and
yields `CPG_NAN` when the pool is empty. -/
theorem winStat_spec (reducer : List Int → Int) (wlen : Int)
    (cells : List CellRow)
    (h : ∀ c ∈ cells, c.nbState.length = c.nbDist.length) :
    winStatCode reducer wlen cells = winStatSpec reducer wlen cells := by
  simp only [winStatCode, winStatSpec]
  have hzip := flatten_map_zip_flatten_map
    (fun c => c.nbState ++ [c.ownState]) (fun c => c.nbDist ++ [(0 : Int)])
    cells (fun c hc => by simp [h c hc])
  simp only at hzip
  rw [hzip]
  have hcell : (cells.map fun c =>
      (c.nbState ++ [c.ownState]).zip (c.nbDist ++ [(0 : Int)])).flatten
      = (cells.map fun c =>
          c.nbState.zip c.nbDist ++ [(c.ownState, (0 : Int))]).flatten := by
    congr 1
    apply List.map_congr_left
    intro c hc
    rw [List.zip_append (h c hc)]
    rfl
  rw [hcell]
  have hfil : ∀ pool : List (Int × Int),
      (pool.filter fun sd =>
        !(decide (sd.1 = CPG_NAN) || decide (wlen / 2 < sd.2)))
      = pool.filter fun sd =>
        decide (sd.1 ≠ CPG_NAN) && decide (sd.2 ≤ wlen / 2) := by
    intro pool
    apply List.filter_congr
    intro x _
    have hx1 : (!decide (x.1 = CPG_NAN)) = decide (x.1 ≠ CPG_NAN) := by
      rw [← decide_not]
    have hx2 : (!decide (wlen / 2 < x.2)) = decide (x.2 ≤ wlen / 2) := by
      rw [← decide_not]
      exact decide_eq_decide.mpr not_lt
    rw [Bool.not_or, hx1, hx2]
  rw [hfil]
  by_cases he : ((cells.map fun c =>
      c.nbState.zip c.nbDist ++ [(c.ownState, (0 : Int))]).flatten.filter
      fun sd => decide (sd.1 ≠ CPG_NAN) && decide (sd.2 ≤ wlen / 2)).map
      Prod.fst = []
  · rw [he]
    rfl
  · rw [if_neg he, if_neg (by simpa [List.isEmpty_iff] using he)]

/-- C3 witness: the pooling equality evaluated on one cell with one neighbour
entry. -/
theorem winStat_spec_witness :
    (∀ c ∈ [CellRow.mk [1] [2] 0], c.nbState.length = c.nbDist.length) ∧
    winStatCode (fun l => (l.length : Int)) 4 [CellRow.mk [1] [2] 0]
      = winStatSpec (fun l => (l.length : Int)) 4 [CellRow.mk [1] [2] 0] :=
  ⟨by decide, winStat_spec (fun l => (l.length : Int)) 4 _ (by decide)⟩

theorem mem_knnNeighbors (k : Nat) (p : Int) (cPos cVals : List Int)
    (o : Option (Int × Int)) (ho : o ∈ knnNeighbors k p cPos cVals) :
    o = none ∨ ∃ q : Int × Int, q ∈ cPos.zip cVals ∧
      ((q.1 < p ∧ o = some (q.2, p - q.1)) ∨
       (p < q.1 ∧ o = some (q.2, q.1 - p))) := by
  unfold knnNeighbors at ho
  simp only [List.mem_append, List.mem_replicate, List.mem_map] at ho
  rcases ho with (ho | ho) | (ho | ho)
  · exact Or.inl ho.2
  · obtain ⟨q, hq, rfl⟩ := ho
    have hq2 := List.mem_filter.1 (List.mem_of_mem_drop hq)
    exact Or.inr ⟨q, hq2.1, Or.inl ⟨by simpa using hq2.2, rfl⟩⟩
  · obtain ⟨q, hq, rfl⟩ := ho
    have hq2 := List.mem_filter.1 (List.mem_of_mem_take hq)
    exact Or.inr ⟨q, hq2.1, Or.inr ⟨by simpa using hq2.2, rfl⟩⟩
  · exact Or.inl ho.2

theorem length_knnNeighbors (k : Nat) (p : Int) (cPos cVals : List Int) :
    (knnNeighbors k p cPos cVals).length = 2 * k := by
  unfold knnNeighbors
  simp only [List.length_append, List.length_replicate, List.length_map,
    List.length_drop, List.length_take]
  omega

/-- C5: for every chunk and cell, after neighbour extraction and CpgNan
substitution every written state value is 0, 1 or `CPG_NAN`, every written
dist value is `CPG_NAN` or strictly positive (a neighbour is never at
distance 0), and the number of non-CpgNan neighbours on each side of the
target position is at most `k = cpg_wlen / 2`. -/
theorem knnStateDist_spec (k : Nat) (p : Int) (cPos cVals : List Int)
    (hv : ∀ v ∈ cVals, v = 0 ∨ v = 1) :
    (∀ s ∈ (knnStateDist k p cPos cVals).1, s = 0 ∨ s = 1 ∨ s = CPG_NAN) ∧
    (∀ d ∈ (knnStateDist k p cPos cVals).2, d = CPG_NAN ∨ 0 < d) ∧
    countValid ((knnStateDist k p cPos cVals).1.take k) ≤ k ∧
    countValid ((knnStateDist k p cPos cVals).1.drop k) ≤ k := by
  have hcv : ∀ l : List Int, countValid l ≤ l.length :=
    fun l => List.length_filter_le _ l
  have hlen : (knnStateDist k p cPos cVals).1.length = 2 * k := by
    unfold knnStateDist
    simp [length_knnNeighbors]
  refine ⟨?_, ?_, ?_, ?_⟩
  · intro s hs
    unfold knnStateDist at hs
    simp only [List.mem_map] at hs
    obtain ⟨o, ho, rfl⟩ := hs
    rcases mem_knnNeighbors k p cPos cVals o ho with rfl | ⟨q, hq, hcase⟩
    · exact Or.inr (Or.inr rfl)
    · have hval : q.2 ∈ cVals := (List.of_mem_zip (by simpa using hq)).2
      rcases hcase with ⟨_, rfl⟩ | ⟨_, rfl⟩ <;>
        rcases hv q.2 hval with h01 | h01 <;> simp [h01]
  · intro d hd
    unfold knnStateDist at hd
    simp only [List.mem_map] at hd
    obtain ⟨o, ho, rfl⟩ := hd
    rcases mem_knnNeighbors k p cPos cVals o ho with rfl | ⟨q, hq, hcase⟩
    · exact Or.inl rfl
    · rcases hcase with ⟨hlt, rfl⟩ | ⟨hlt, rfl⟩ <;> exact Or.inr (by simp; omega)
  · calc countValid ((knnStateDist k p cPos cVals).1.take k)
        ≤ ((knnStateDist k p cPos cVals).1.take k).length := hcv _
      _ ≤ k := by simp
  · calc countValid ((knnStateDist k p cPos cVals).1.drop k)
        ≤ ((knnStateDist k p cPos cVals).1.drop k).length := hcv _
      _ ≤ k := by
        simp only [List.length_drop, hlen]
        omega

/-- C5 witness: the invariants evaluated for one cell with two observed
sites around the target. -/
theorem knnStateDist_spec_witness :
    (∀ v ∈ ([1, 0] : List Int), v = 0 ∨ v = 1) ∧
    ((∀ s ∈ (knnStateDist 1 5 [3, 7] [1, 0]).1, s = 0 ∨ s = 1 ∨ s = CPG_NAN) ∧
     (∀ d ∈ (knnStateDist 1 5 [3, 7] [1, 0]).2, d = CPG_NAN ∨ 0 < d) ∧
     countValid ((knnStateDist 1 5 [3, 7] [1, 0]).1.take 1) ≤ 1 ∧
     countValid ((knnStateDist 1 5 [3, 7] [1, 0]).1.drop 1) ≤ 1) :=
  ⟨by decide, knnStateDist_spec 1 5 [3, 7] [1, 0] (by decide)⟩

theorem mem_insertSorted [LinearOrder α] (x a : α) (l : List α) :
    a ∈ insertSorted x l ↔ a = x ∨ a ∈ l := by
  induction l with
  | nil => simp [insertSorted]
  | cons y ys ih =>
    unfold insertSorted
    by_cases h1 : x < y
    · simp [h1]
    · rw [if_neg h1]
      by_cases h2 : x = y
      · subst h2
        rw [if_pos rfl]
        constructor
        · exact Or.inr
        · rintro (rfl | h)
          · exact List.mem_cons_self _ _
          · exact h
      · rw [if_neg h2]
        simp only [List.mem_cons, ih]
        tauto

theorem pairwise_insertSorted [LinearOrder α] (x : α) (l : List α)
    (h : l.Pairwise (· < ·)) : (insertSorted x l).Pairwise (· < ·) := by
  induction l with
  | nil => simp [insertSorted]
  | cons y ys ih =>
    rw [List.pairwise_cons] at h
    unfold insertSorted
    by_cases h1 : x < y
    · rw [if_pos h1, List.pairwise_cons]
      refine ⟨?_, List.pairwise_cons.2 h⟩
      intro b hb
      rcases List.mem_cons.1 hb with rfl | hb
      · exact h1
      · exact h1.trans (h.1 b hb)
    · rw [if_neg h1]
      by_cases h2 : x = y
      · rw [if_pos h2]
        exact List.pairwise_cons.2 h
      · rw [if_neg h2]
        rw [List.pairwise_cons]
        refine ⟨?_, ih h.2⟩
        intro b hb
        rcases (mem_insertSorted x b ys).1 hb with rfl | hb
        · exact lt_of_le_of_ne (not_lt.1 h1) fun hyx => h2 hyx.symm
        · exact h.1 b hb

theorem pairwise_sortDedup [LinearOrder α] (l : List α) :
    (sortDedup l).Pairwise (· < ·) := by
  induction l with
  | nil => exact List.Pairwise.nil
  | cons a t ih => exact pairwise_insertSorted a _ ih

theorem mem_sortDedup [LinearOrder α] (a : α) (l : List α) :
    a ∈ sortDedup l ↔ a ∈ l := by
  induction l with
  | nil => simp [sortDedup]
  | cons b t ih =>
    show a ∈ insertSorted b (sortDedup t) ↔ _
    rw [mem_insertSorted, ih, List.mem_cons]

theorem nodup_sortDedup [LinearOrder α] (l : List α) : (sortDedup l).Nodup :=
  (pairwise_sortDedup l).imp ne_of_lt

theorem posOf_append (c : String) (t1 t2 : List (String × Int)) :
    posOf c (t1 ++ t2) = posOf c t1 ++ posOf c t2 := by
  simp [posOf, List.filter_append]

theorem mem_posOf (c : String) (x : Int) (t : List (String × Int)) :
    x ∈ posOf c t ↔ (c, x) ∈ t := by
  simp only [posOf, List.mem_map, List.mem_filter, decide_eq_true_eq]
  constructor
  · rintro ⟨r, ⟨hr, hc⟩, rfl⟩
    have : r = (c, r.2) := by
      cases r
      simp only at hc
      rw [hc]
    rwa [← this]
  · intro h
    exact ⟨(c, x), ⟨h, rfl⟩, rfl⟩

theorem posOf_flatten (c : String) (ls : List (List (String × Int))) :
    posOf c ls.flatten = (ls.map (posOf c)).flatten := by
  induction ls with
  | nil => rfl
  | cons t ts ih => simp [posOf_append, ih]

theorem posOf_constBlock (c c' : String) (l : List Int) :
    posOf c (l.map fun p => (c', p)) = if c' = c then l else [] := by
  by_cases h : c' = c
  · subst h
    rw [if_pos rfl]
    induction l with
    | nil => rfl
    | cons p t ih =>
      simp only [posOf, List.map_cons, List.filter_cons] at ih ⊢
      simp [ih]
  · rw [if_neg h]
    induction l with
    | nil => rfl
    | cons p t ih =>
      simp only [posOf, List.map_cons, List.filter_cons] at ih ⊢
      simp [ih, h]

theorem flatten_map_ite (c : String) (chromos : List String)
    (hnd : chromos.Nodup) (g : String → List Int) :
    (chromos.map fun c2 => if c2 = c then g c2 else []).flatten
      = if c ∈ chromos then g c else [] := by
  induction chromos with
  | nil => simp
  | cons c' rest ih =>
    simp only [List.map_cons, List.flatten_cons]
    by_cases h : c' = c
    · subst h
      rw [if_pos rfl, if_pos (List.mem_cons_self c' rest)]
      have hnotin : c' ∉ rest := (List.nodup_cons.1 hnd).1
      have hnil : (rest.map fun c2 => if c2 = c' then g c2 else []).flatten
          = [] := by
        rw [List.flatten_eq_nil_iff]
        intro l hl
        obtain ⟨c2, hc2, rfl⟩ := List.mem_map.1 hl
        rw [if_neg]
        intro hc
        exact hnotin (hc ▸ hc2)
      rw [hnil, List.append_nil]
    · rw [if_neg h, List.nil_append, ih (List.nodup_cons.1 hnd).2]
      by_cases hm : c ∈ rest
      · rw [if_pos hm, if_pos (List.mem_cons_of_mem _ hm)]
      · rw [if_neg hm, if_neg]
        intro hc
        rcases List.mem_cons.1 hc with rfl | hc
        · exact h rfl
        · exact hm hc

theorem posOf_dedupSortTable (c : String) (t : List (String × Int)) :
    posOf c (dedupSortTable t) = sortDedup (posOf c t) := by
  unfold dedupSortTable
  rw [posOf_flatten, List.map_map]
  have hblocks : (sortDedup (t.map Prod.fst)).map
        ((posOf c) ∘ fun c2 => (sortDedup (posOf c2 t)).map fun p => (c2, p))
      = (sortDedup (t.map Prod.fst)).map
        (fun c2 => if c2 = c then sortDedup (posOf c t) else []) := by
    apply List.map_congr_left
    intro c2 _
    simp only [Function.comp_apply]
    rw [posOf_constBlock]
    by_cases h : c2 = c
    · rw [if_pos h, if_pos h, h]
    · rw [if_neg h, if_neg h]
  rw [hblocks, flatten_map_ite c _ (nodup_sortDedup _)]
  by_cases hm : c ∈ sortDedup (t.map Prod.fst)
  · rw [if_pos hm]
  · rw [if_neg hm]
    rw [mem_sortDedup] at hm
    have hempty : posOf c t = [] := by
      unfold posOf
      rw [List.filter_eq_nil_iff.2, List.map_nil]
      intro r hr
      simp only [decide_eq_true_eq]
      intro hc
      exact hm (List.mem_map.2 ⟨r, hr, hc⟩)
    rw [hempty]
    rfl

theorem foldl_dedup_mem (ts : List (List (String × Int)))
    (acc : List (String × Int)) (c : String) (x : Int) :
    x ∈ posOf c (ts.foldl (fun a t2 => dedupSortTable (a ++ t2)) acc) ↔
      x ∈ posOf c acc ∨ ∃ tb, tb ∈ ts ∧ (c, x) ∈ tb := by
  induction ts generalizing acc with
  | nil => simp
  | cons t2 rest ih =>
    simp only [List.foldl_cons]
    rw [ih, posOf_dedupSortTable, mem_sortDedup, posOf_append, List.mem_append]
    constructor
    · rintro ((h | h) | ⟨tb, htb, h⟩)
      · exact Or.inl h
      · exact Or.inr ⟨t2, List.mem_cons_self _ _, (mem_posOf c x t2).1 h⟩
      · exact Or.inr ⟨tb, List.mem_cons_of_mem _ htb, h⟩
    · rintro (h | ⟨tb, htb, h⟩)
      · exact Or.inl (Or.inl h)
      · rcases List.mem_cons.1 htb with rfl | htb
        · exact Or.inl (Or.inr ((mem_posOf c x _).2 h))
        · exact Or.inr ⟨tb, htb, h⟩

theorem foldl_dedup_pairwise (ts : List (List (String × Int)))
    (acc : List (String × Int)) (c : String)
    (hacc : (posOf c acc).Pairwise (· < ·)) :
    (posOf c (ts.foldl (fun a t2 => dedupSortTable (a ++ t2)) acc)).Pairwise
      (· < ·) := by
  induction ts generalizing acc with
  | nil => exact hacc
  | cons t2 rest ih =>
    simp only [List.foldl_cons]
    apply ih
    rw [posOf_dedupSortTable]
    exact pairwise_sortDedup _

/-- C7: for every nonempty collection of source position tables, the
canonical position list built per chromosome by `prepro_pos_table` is sorted
strictly increasing (duplicate-free) and its members are exactly the
coordinates appearing for that chromosome in some input table. -/
theorem prepro_pos_table_spec (tables : List (List (String × Int)))
    (hne : tables ≠ []) :
    ∃ t, prepro_pos_table tables = some t ∧
      ∀ c, (posOf c t).Pairwise (· < ·) ∧
        ∀ x, x ∈ posOf c t ↔ ∃ tb, tb ∈ tables ∧ (c, x) ∈ tb := by
  match tables, hne with
  | t0 :: ts, _ =>
    refine ⟨_, rfl, fun c => ⟨?_, fun x => ?_⟩⟩
    · apply foldl_dedup_pairwise
      rw [posOf_dedupSortTable]
      exact pairwise_sortDedup _
    · rw [foldl_dedup_mem, posOf_dedupSortTable, mem_sortDedup, mem_posOf]
      constructor
      · rintro (h | ⟨tb, htb, h⟩)
        · exact ⟨t0, List.mem_cons_self _ _, h⟩
        · exact ⟨tb, List.mem_cons_of_mem _ htb, h⟩
      · rintro ⟨tb, htb, h⟩
        rcases List.mem_cons.1 htb with rfl | htb
        · exact Or.inl h
        · exact Or.inr ⟨tb, htb, h⟩

/-- C7 witness: the canonical index property evaluated on two concrete
tables sharing chromosome "1". -/
theorem prepro_pos_table_spec_witness :
    ([[("1", (20 : Int)), ("1", 10)], [("1", 20), ("2", 5)]] ≠
      ([] : List (List (String × Int)))) ∧
    ∃ t, prepro_pos_table [[("1", (20 : Int)), ("1", 10)], [("1", 20), ("2", 5)]]
        = some t ∧
      ∀ c, (posOf c t).Pairwise (· < ·) ∧
        ∀ x, x ∈ posOf c t ↔ ∃ tb,
          tb ∈ [[("1", (20 : Int)), ("1", 10)], [("1", 20), ("2", 5)]] ∧
          (c, x) ∈ tb :=
  ⟨by decide, prepro_pos_table_spec _ (by decide)⟩

theorem getD_eq_getElem_of_lt {α : Type _} (l : List α) (i : Nat) (d : α)
    (h : i < l.length) : l.getD i d = l[i] := by
  rw [List.getD_eq_getElem?_getD, List.getElem?_eq_getElem h]
  rfl

theorem isSortedLe_of_pairwise :
    ∀ l : List Int, l.Pairwise (· < ·) → isSortedLe l = true
  | [], _ => rfl
  | [_], _ => rfl
  | a :: b :: t, h => by
    have h1 : a < b := (List.pairwise_cons.1 h).1 b (List.mem_cons_self _ _)
    have h2 : (b :: t).Pairwise (· < ·) := (List.pairwise_cons.1 h).2
    show (decide (a ≤ b) && isSortedLe (b :: t)) = true
    rw [isSortedLe_of_pairwise (b :: t) h2]
    simp [le_of_lt h1]

theorem map_fst_filter_zip (pos values : List Int)
    (hlen : values.length = pos.length) (P : Int → Bool) :
    ((pos.zip values).filter fun pv => P pv.1).map Prod.fst = pos.filter P := by
  induction pos generalizing values with
  | nil => simp
  | cons p ps ih =>
    cases values with
    | nil => simp at hlen
    | cons v vs =>
      have hlen2 : vs.length = ps.length := by simpa using hlen
      by_cases h : P p <;>
        simp [List.filter_cons, h, ih vs hlen2]

theorem map_getD_filter_range (l : List Int) (P : Int → Bool) :
    ((List.range l.length).filter fun i => P (l.getD i 0)).map
        (fun i => l.getD i 0)
      = l.filter P := by
  induction l with
  | nil => simp
  | cons a t ih =>
    rw [List.length_cons, List.range_succ_eq_map]
    have hfm : (List.filter (fun i => P ((a :: t).getD i 0))
          (List.map Nat.succ (List.range t.length)))
        = List.map Nat.succ
          ((List.range t.length).filter fun i => P (t.getD i 0)) := by
      rw [List.filter_map]
      exact congrArg (List.map Nat.succ) (List.filter_congr fun i _ => rfl)
    rw [List.filter_cons, hfm]
    by_cases h : P a
    · rw [if_pos (by simpa using h)]
      simp only [List.map_cons, List.getD_cons_zero, List.map_map]
      rw [List.filter_cons, if_pos h]
      congr 1
    · rw [if_neg (by simpa using h)]
      simp only [List.map_map]
      rw [List.filter_cons, if_neg h]
      rw [← ih]
      exact List.map_congr_left fun i _ => rfl

theorem filter_mem_eq_self_of_subset (target pos2 : List Int)
    (ht : target.Pairwise (· < ·)) (hp : pos2.Pairwise (· < ·))
    (hsub : ∀ x ∈ pos2, x ∈ target) :
    target.filter (fun x => decide (x ∈ pos2)) = pos2 := by
  haveI : IsAntisymm Int (· < ·) :=
    ⟨fun a b hab hba => absurd hba (lt_asymm hab)⟩
  apply List.eq_of_perm_of_sorted ?hperm (ht.filter _) hp
  apply (List.perm_ext_iff_of_nodup ((ht.imp ne_of_lt).filter _)
    (hp.imp ne_of_lt)).2
  intro x
  rw [List.mem_filter]
  constructor
  · intro hx
    simpa using hx.2
  · intro hx
    exact ⟨hsub x hx, by simpa using hx⟩

theorem scatter_length (base : List Int) (idx : List Nat) (vals : List Int) :
    (scatter base idx vals).length = base.length := by
  induction idx generalizing base vals with
  | nil => cases vals <;> rfl
  | cons a as ih =>
    cases vals with
    | nil => rfl
    | cons v vs =>
      rw [scatter, ih]
      exact List.length_set base a v

theorem scatter_getD_not_mem (base : List Int) (idx : List Nat)
    (vals : List Int) (i : Nat) (hi : i ∉ idx) :
    (scatter base idx vals).getD i 0 = base.getD i 0 := by
  induction idx generalizing base vals with
  | nil => cases vals <;> rfl
  | cons a as ih =>
    cases vals with
    | nil => rfl
    | cons v vs =>
      rw [scatter, ih (base.set a v) vs fun h => hi (List.mem_cons_of_mem _ h)]
      have hne : a ≠ i := fun h => hi (h ▸ List.mem_cons_self _ _)
      rw [List.getD_eq_getElem?_getD, List.getElem?_set_ne hne,
        ← List.getD_eq_getElem?_getD]

theorem scatter_getD_mem (base : List Int) (idx : List Nat) (vals : List Int)
    (hnd : idx.Nodup) (hlen : idx.length = vals.length) (j : Nat)
    (hj : j < idx.length) (hbound : idx.getD j 0 < base.length) :
    (scatter base idx vals).getD (idx.getD j 0) 0 = vals.getD j 0 := by
  induction idx generalizing base vals j with
  | nil => simp at hj
  | cons a as ih =>
    cases vals with
    | nil => simp at hlen
    | cons v vs =>
      cases j with
      | zero =>
        rw [List.getD_cons_zero] at hbound ⊢
        rw [scatter, scatter_getD_not_mem _ _ _ _ (List.nodup_cons.1 hnd).1]
        rw [List.getD_eq_getElem?_getD, List.getElem?_set_self
          (by simpa using hbound)]
        rfl
      | succ j2 =>
        rw [List.getD_cons_succ] at hbound ⊢
        rw [scatter]
        apply ih (base.set a v) vs (List.nodup_cons.1 hnd).2
          (by simpa using hlen) j2 (by simpa using hj)
        simpa using hbound

theorem exists_index_of_mem_zip (a b : Int) (l1 l2 : List Int)
    (h : (a, b) ∈ l1.zip l2) :
    ∃ m, m < l1.length ∧ l1.getD m 0 = a ∧ l2.getD m 0 = b := by
  obtain ⟨n, hn, heq⟩ := List.mem_iff_getElem.1 h
  rw [List.getElem_zip] at heq
  have h1 : n < l1.length := by
    rw [List.length_zip] at hn
    omega
  have h2 : n < l2.length := by
    rw [List.length_zip] at hn
    omega
  refine ⟨n, h1, ?_, ?_⟩
  · rw [getD_eq_getElem_of_lt _ _ _ h1]
    exact congrArg Prod.fst heq
  · rw [getD_eq_getElem_of_lt _ _ _ h2]
    exact congrArg Prod.snd heq

/-- C1: for every sparse series with matching lengths and both position
arrays sorted strictly ascending, `map_values` succeeds and returns an array
of the target's length in which every target position present in the source
carries the source's exact value and every other target position carries
`CPG_NAN`. -/
theorem map_values_spec (values pos target_pos : List Int)
    (hlen : values.length = pos.length)
    (hp : pos.Pairwise (· < ·)) (ht : target_pos.Pairwise (· < ·)) :
    ∃ res, map_values values pos target_pos = some res ∧
      res.length = target_pos.length ∧
      ∀ i, i < target_pos.length →
        ((target_pos.getD i 0 ∈ pos →
          ∃ j, j < pos.length ∧ pos.getD j 0 = target_pos.getD i 0 ∧
            res.getD i 0 = values.getD j 0) ∧
         (target_pos.getD i 0 ∉ pos → res.getD i 0 = CPG_NAN)) := by
  have hg1 : values.length = pos.length ∧ isSortedLe pos = true ∧
      isSortedLe target_pos = true :=
    ⟨hlen, isSortedLe_of_pairwise pos hp, isSortedLe_of_pairwise _ ht⟩
  have hpos2eq : (mvPairs values pos target_pos).map Prod.fst
      = pos.filter fun x => decide (x ∈ target_pos) := by
    unfold mvPairs
    exact map_fst_filter_zip pos values hlen fun x => decide (x ∈ target_pos)
  have hpw2 : ((mvPairs values pos target_pos).map Prod.fst).Pairwise
      (· < ·) := by
    rw [hpos2eq]
    exact hp.filter _
  have hsub : ∀ x ∈ (mvPairs values pos target_pos).map Prod.fst,
      x ∈ target_pos := by
    intro x hx
    rw [hpos2eq, List.mem_filter] at hx
    simpa using hx.2
  have hmapidx : (mvIdx values pos target_pos).map
        (fun i => target_pos.getD i 0)
      = (mvPairs values pos target_pos).map Prod.fst := by
    unfold mvIdx
    rw [map_getD_filter_range target_pos
      (fun x => decide (x ∈ (mvPairs values pos target_pos).map Prod.fst))]
    exact filter_mem_eq_self_of_subset target_pos _ ht hpw2 hsub
  have hlenidx : (mvIdx values pos target_pos).length
      = ((mvPairs values pos target_pos).map Prod.snd).length := by
    have hc := congrArg List.length hmapidx
    simpa using hc
  have hndidx : (mvIdx values pos target_pos).Nodup := by
    unfold mvIdx
    exact (List.nodup_range _).filter _
  have hidxlt : ∀ x ∈ mvIdx values pos target_pos, x < target_pos.length := by
    intro x hx
    unfold mvIdx at hx
    exact List.mem_range.1 (List.mem_of_mem_filter hx)
  refine ⟨_, by unfold map_values; rw [if_pos hg1, if_pos ⟨hlenidx, hmapidx⟩],
    ?_, ?_⟩
  · rw [scatter_length, List.length_replicate]
  · intro i hi
    have hti : target_pos.getD i 0 ∈ target_pos := by
      rw [getD_eq_getElem_of_lt _ _ _ hi]
      exact List.getElem_mem hi
    constructor
    · intro hmem
      have hti2 : target_pos.getD i 0
          ∈ (mvPairs values pos target_pos).map Prod.fst := by
        rw [hpos2eq, List.mem_filter]
        exact ⟨hmem, by simpa using hti⟩
      have hiidx : i ∈ mvIdx values pos target_pos := by
        unfold mvIdx
        rw [List.mem_filter]
        exact ⟨List.mem_range.2 hi, by simpa using hti2⟩
      obtain ⟨j, hj, hij⟩ := List.mem_iff_getElem.1 hiidx
      have hgetj : (mvIdx values pos target_pos).getD j 0 = i := by
        rw [getD_eq_getElem_of_lt _ _ _ hj, hij]
      have hjp : j < (mvPairs values pos target_pos).length := by
        have := hlenidx
        simp only [List.length_map] at this
        omega
      have hjv : j < ((mvPairs values pos target_pos).map Prod.snd).length := by
        simpa using hjp
      have hres : (scatter (List.replicate target_pos.length CPG_NAN)
            (mvIdx values pos target_pos)
            ((mvPairs values pos target_pos).map Prod.snd)).getD i 0
          = ((mvPairs values pos target_pos).map Prod.snd).getD j 0 := by
        rw [← hgetj]
        apply scatter_getD_mem _ _ _ hndidx hlenidx j hj
        rw [List.length_replicate, hgetj]
        exact hi
      have hq1 : target_pos.getD i 0 = (mvPairs values pos target_pos)[j].1 := by
        have hc := congrArg (fun l => l.getD j 0) hmapidx
        simp only at hc
        rw [getD_eq_getElem_of_lt _ _ _ (by simpa using hj),
          getD_eq_getElem_of_lt _ _ _ (by simpa using hjp)] at hc
        rw [List.getElem_map, List.getElem_map, hij] at hc
        exact hc
      have hq2 : ((mvPairs values pos target_pos).map Prod.snd).getD j 0
          = (mvPairs values pos target_pos)[j].2 := by
        rw [getD_eq_getElem_of_lt _ _ _ hjv, List.getElem_map]
      have hqmem : ((mvPairs values pos target_pos)[j].1,
          (mvPairs values pos target_pos)[j].2) ∈ pos.zip values := by
        have hq : (mvPairs values pos target_pos)[j]
            ∈ mvPairs values pos target_pos := List.getElem_mem hjp
        unfold mvPairs at hq
        exact List.mem_of_mem_filter hq
      obtain ⟨m, hm, hma, hmb⟩ := exists_index_of_mem_zip _ _ _ _ hqmem
      refine ⟨m, hm, ?_, ?_⟩
      · rw [hma, hq1]
      · rw [hres, hq2, ← hmb]
    · intro hnmem
      have hni : i ∉ mvIdx values pos target_pos := by
        unfold mvIdx
        rw [List.mem_filter]
        rintro ⟨-, hdec⟩
        have hmem2 : target_pos.getD i 0
            ∈ (mvPairs values pos target_pos).map Prod.fst := by
          simpa using hdec
        rw [hpos2eq, List.mem_filter] at hmem2
        exact hnmem hmem2.1
      rw [scatter_getD_not_mem _ _ _ i hni]
      rw [List.getD_eq_getElem?_getD, List.getElem?_replicate_of_lt hi]
      rfl

theorem swWin_length (seq : List Char) (p0 delta : Int) :
    (swWin seq p0 delta).length
      = min seq.length (p0 + delta + 1).toNat - (p0 - delta).toNat := by
  unfold swWin
  rw [List.length_take, List.length_drop]
  omega

theorem swPadded_length (seq : List Char) (p0 delta : Int) (wlen : Nat)
    (h0 : 0 ≤ p0) (hlt : p0 < (seq.length : Int)) (hd : 0 ≤ delta)
    (hwl : (wlen : Int) = 2 * delta + 1) :
    (swPadded seq p0 delta wlen).length = wlen := by
  unfold swPadded
  by_cases hcase : (swWin seq p0 delta).length < wlen
  · rw [if_pos hcase]
    simp only [List.length_append, List.length_replicate, swWin_length]
    omega
  · rw [if_neg hcase]
    rw [swWin_length] at hcase ⊢
    omega

theorem swPadded_getD (seq : List Char) (p0 delta : Int) (wlen : Nat)
    (h0 : 0 ≤ p0) (hlt : p0 < (seq.length : Int))
    (hwl : (wlen : Int) = 2 * delta + 1) (j : Nat) (hj : j < wlen)
    (hge : 0 ≤ p0 - delta + j) (hlt2 : p0 - delta + j < (seq.length : Int)) :
    (swPadded seq p0 delta wlen).getD j 'N'
      = seq.getD (p0 - delta + j).toNat 'N' := by
  have hwin := swWin_length seq p0 delta
  rw [List.getD_eq_getElem?_getD, List.getD_eq_getElem?_getD]
  unfold swPadded
  by_cases hcase : (swWin seq p0 delta).length < wlen
  · rw [if_pos hcase]
    rw [hwin] at hcase
    have haj : (List.replicate ((delta - p0).toNat) 'N').length ≤ j := by
      rw [List.length_replicate]
      omega
    have hjlt : j < (List.replicate ((delta - p0).toNat) 'N'
        ++ swWin seq p0 delta).length := by
      rw [List.length_append, List.length_replicate, hwin]
      omega
    rw [List.getElem?_append_left hjlt]
    rw [List.getElem?_append_right haj, List.length_replicate]
    unfold swWin
    rw [List.getElem?_take_of_lt (by omega), List.getElem?_drop]
    have hidx : (p0 - delta).toNat + (j - (delta - p0).toNat)
        = (p0 - delta + j).toNat := by omega
    rw [hidx]
  · rw [if_neg hcase]
    rw [hwin] at hcase
    unfold swWin
    rw [List.getElem?_take_of_lt (by omega), List.getElem?_drop]
    have hidx : (p0 - delta).toNat + j = (p0 - delta + j).toNat := by omega
    rw [hidx]

theorem imputeRow_length (r : Nat → Int) (j : Nat) (l : List Int) :
    (imputeRow r j l).length = l.length := by
  induction l generalizing j with
  | nil => rfl
  | cons v vs ih => simp [imputeRow, ih]

theorem imputeRow_getD (r : Nat → Int) (j k : Nat) (l : List Int)
    (hk : k < l.length) :
    (imputeRow r j l).getD k 0
      = if l.getD k 0 = 4 then r (j + k) % 4 else l.getD k 0 := by
  induction l generalizing j k with
  | nil => simp at hk
  | cons v vs ih =>
    cases k with
    | zero => simp [imputeRow]
    | succ k2 =>
      simp only [imputeRow, List.getD_cons_succ]
      rw [ih (j + 1) k2 (by simpa using hk)]
      have hplus : j + 1 + k2 = j + (k2 + 1) := by omega
      rw [hplus]

theorem mem_imputeRow (r : Nat → Int) (j : Nat) (l : List Int)
    (hl : ∀ v ∈ l, 0 ≤ v ∧ v ≤ 4) :
    ∀ x ∈ imputeRow r j l, 0 ≤ x ∧ x < 4 := by
  induction l generalizing j with
  | nil =>
    intro x hx
    simp [imputeRow] at hx
  | cons v vs ih =>
    intro x hx
    simp only [imputeRow, List.mem_cons] at hx
    rcases hx with rfl | hx
    · by_cases h4 : v = 4
      · rw [if_pos h4]
        constructor
        · exact Int.emod_nonneg _ (by norm_num)
        · exact Int.emod_lt_of_pos _ (by norm_num)
      · rw [if_neg h4]
        have hb := hl v (List.mem_cons_self _ _)
        omega
    · exact ih (j + 1) (fun w hw => hl w (List.mem_cons_of_mem _ hw)) x hx

theorem charToInt_bounds (c : Char) : 0 ≤ charToInt c ∧ charToInt c ≤ 4 := by
  unfold charToInt
  repeat' split
  all_goals norm_num

theorem allSome_map_eq (posl : List Int) (f : Int → Option (List Char))
    (hf : ∀ p ∈ posl, (f p).isSome) :
    allSome (posl.map f) = some (posl.map fun p => (f p).getD []) := by
  induction posl with
  | nil => rfl
  | cons p ps ih =>
    obtain ⟨w, hw⟩ := Option.isSome_iff_exists.1 (hf p (List.mem_cons_self _ _))
    simp only [List.map_cons]
    rw [hw]
    show (allSome (ps.map f)).map (fun l => w :: l) = _
    rw [ih fun q hq => hf q (List.mem_cons_of_mem _ hq)]
    simp [hw]

theorem encodeRows_length (rand : Nat → Nat → Int) (i : Nat)
    (ws : List (List Char)) : (encodeRows rand i ws).length = ws.length := by
  induction ws generalizing i with
  | nil => rfl
  | cons w t ih => simp [encodeRows, ih]

theorem encodeRows_getD (rand : Nat → Nat → Int) (i k : Nat)
    (ws : List (List Char)) (hk : k < ws.length) :
    (encodeRows rand i ws).getD k []
      = imputeRow (rand (i + k)) 0 ((ws.getD k []).map charToInt) := by
  induction ws generalizing i k with
  | nil => simp at hk
  | cons w t ih =>
    cases k with
    | zero => simp [encodeRows]
    | succ k2 =>
      simp only [encodeRows, List.getD_cons_succ]
      rw [ih (i + 1) k2 (by simpa using hk)]
      have hplus : i + 1 + k2 = i + (k2 + 1) := by omega
      rw [hplus]

theorem mem_encodeRows (rand : Nat → Nat → Int) (i : Nat)
    (ws : List (List Char)) (r : List Int) (hr : r ∈ encodeRows rand i ws) :
    ∃ w, w ∈ ws ∧ ∃ j, r = imputeRow (rand j) 0 (w.map charToInt) := by
  induction ws generalizing i with
  | nil => simp [encodeRows] at hr
  | cons w t ih =>
    simp only [encodeRows, List.mem_cons] at hr
    rcases hr with rfl | hr
    · exact ⟨w, List.mem_cons_self _ _, i, rfl⟩
    · obtain ⟨w2, hw2, j, hj⟩ := ih (i + 1) hr
      exact ⟨w2, List.mem_cons_of_mem _ hw2, j, hj⟩

/-- C2: for every odd `wlen` and every 1-based position inside the sequence,
`extract_seq_windows` yields a window of length exactly `wlen` with all
values in [0, 4) after random imputation, including positions within
`wlen / 2` of a sequence end; and when the two uppercased bases at the window
centre are literally "CG", the centre value decodes to C's code 3 and the
next value to G's code 2. -/
theorem extract_seq_windows_spec (seq : List Char) (posl : List Int)
    (wlen : Nat) (rand : Nat → Nat → Int) (hw : wlen % 2 = 1)
    (hall : ∀ p ∈ posl, 1 ≤ p ∧ p ≤ (seq.length : Int)) :
    ∃ rows, extract_seq_windows seq posl wlen 1 rand = some rows ∧
      rows.length = posl.length ∧
      (∀ r ∈ rows, r.length = wlen ∧ ∀ v ∈ r, 0 ≤ v ∧ v < 4) ∧
      (∀ i, i < posl.length → 1 ≤ wlen / 2 →
        (seq.map Char.toUpper).getD (posl.getD i 0 - 1).toNat 'N' = 'C' →
        (posl.getD i 0 - 1).toNat + 1 < seq.length →
        (seq.map Char.toUpper).getD ((posl.getD i 0 - 1).toNat + 1) 'N' = 'G' →
        (rows.getD i []).getD (wlen / 2) 0 = 3 ∧
        (rows.getD i []).getD (wlen / 2 + 1) 0 = 2) := by
  have hwl : (wlen : Int) = 2 * ((wlen / 2 : Nat) : Int) + 1 := by
    have hn : wlen = 2 * (wlen / 2) + 1 := by omega
    exact_mod_cast hn
  have hUlen : (seq.map Char.toUpper).length = seq.length := List.length_map _ _
  have hbounds : ∀ p ∈ posl, 0 ≤ p - 1 ∧
      p - 1 < ((seq.map Char.toUpper).length : Int) := by
    intro p hp
    have := hall p hp
    rw [hUlen]
    omega
  have hplen : ∀ p ∈ posl,
      (swPadded (seq.map Char.toUpper) (p - 1) ((wlen / 2 : Nat) : Int)
        wlen).length = wlen := by
    intro p hp
    exact swPadded_length _ _ _ _ (hbounds p hp).1 (hbounds p hp).2
      (by positivity) hwl
  have hfsome : ∀ p ∈ posl,
      (seqWindow (seq.map Char.toUpper) p wlen 1).isSome := by
    intro p hp
    unfold seqWindow
    rw [if_pos (hplen p hp)]
    rfl
  have hfval : ∀ p ∈ posl, seqWindow (seq.map Char.toUpper) p wlen 1
      = some (swPadded (seq.map Char.toUpper) (p - 1)
          ((wlen / 2 : Nat) : Int) wlen) := by
    intro p hp
    unfold seqWindow
    rw [if_pos (hplen p hp)]
  have hAll := allSome_map_eq posl
    (fun p => seqWindow (seq.map Char.toUpper) p wlen 1) hfsome
  refine ⟨encodeRows rand 0 (posl.map fun p =>
    (seqWindow (seq.map Char.toUpper) p wlen 1).getD []), ?_, ?_, ?_, ?_⟩
  · show (allSome (posl.map fun p =>
        seqWindow (seq.map Char.toUpper) p wlen 1)).map
        (fun ws => encodeRows rand 0 ws) = _
    rw [hAll]
    rfl
  · rw [encodeRows_length, List.length_map]
  · intro r hr
    obtain ⟨w, hwmem, j, rfl⟩ := mem_encodeRows rand 0 _ r hr
    obtain ⟨p, hp, hpe⟩ := List.mem_map.1 hwmem
    have hwlen : w.length = wlen := by
      rw [← hpe, hfval p hp]
      exact hplen p hp
    constructor
    · rw [imputeRow_length, List.length_map, hwlen]
    · apply mem_imputeRow
      intro v hv
      obtain ⟨c, _, rfl⟩ := List.mem_map.1 hv
      exact charToInt_bounds c
  · intro i hi hd hC hlt2 hG
    have hpmem : posl.getD i 0 ∈ posl := by
      rw [getD_eq_getElem_of_lt _ _ _ hi]
      exact List.getElem_mem hi
    have hwsi : (posl.map fun p =>
        (seqWindow (seq.map Char.toUpper) p wlen 1).getD []).getD i []
        = swPadded (seq.map Char.toUpper) (posl.getD i 0 - 1)
            ((wlen / 2 : Nat) : Int) wlen := by
      rw [getD_eq_getElem_of_lt _ _ _ (by simpa using hi), List.getElem_map]
      rw [show posl[i] = posl.getD i 0 from
        (getD_eq_getElem_of_lt _ _ _ hi).symm]
      rw [hfval _ hpmem]
      rfl
    have hrowi : (encodeRows rand 0 (posl.map fun p =>
        (seqWindow (seq.map Char.toUpper) p wlen 1).getD [])).getD i []
        = imputeRow (rand i) 0
            ((swPadded (seq.map Char.toUpper) (posl.getD i 0 - 1)
              ((wlen / 2 : Nat) : Int) wlen).map charToInt) := by
      rw [encodeRows_getD rand 0 i _ (by simpa using hi), hwsi]
      norm_num
    have hb := hbounds _ hpmem
    have hwpad := hplen _ hpmem
    set W := swPadded (seq.map Char.toUpper) (posl.getD i 0 - 1)
      ((wlen / 2 : Nat) : Int) wlen with hWdef
    have hcenter : W.getD (wlen / 2) 'N'
        = (seq.map Char.toUpper).getD (posl.getD i 0 - 1).toNat 'N' := by
      rw [hWdef]
      rw [swPadded_getD _ _ _ _ hb.1 hb.2 hwl (wlen / 2)
        (by omega) (by omega) (by rw [hUlen] at hb ⊢; omega)]
      congr 1
      omega
    have hnext : W.getD (wlen / 2 + 1) 'N'
        = (seq.map Char.toUpper).getD ((posl.getD i 0 - 1).toNat + 1) 'N' := by
      rw [hWdef]
      rw [swPadded_getD _ _ _ _ hb.1 hb.2 hwl (wlen / 2 + 1)
        (by omega) (by omega) (by rw [hUlen]; push_cast; omega)]
      congr 1
      omega
    have hcw : wlen / 2 < W.length := by
      rw [hwpad]
      omega
    have hcw2 : wlen / 2 + 1 < W.length := by
      rw [hwpad]
      omega
    have hmapC : (W.map charToInt).getD (wlen / 2) 0 = 3 := by
      rw [getD_eq_getElem_of_lt _ _ _ (by simpa using hcw), List.getElem_map]
      rw [show W[wlen / 2] = W.getD (wlen / 2) 'N' from
        (getD_eq_getElem_of_lt _ _ _ hcw).symm]
      rw [hcenter, hC]
      rfl
    have hmapG : (W.map charToInt).getD (wlen / 2 + 1) 0 = 2 := by
      rw [getD_eq_getElem_of_lt _ _ _ (by simpa using hcw2), List.getElem_map]
      rw [show W[wlen / 2 + 1] = W.getD (wlen / 2 + 1) 'N' from
        (getD_eq_getElem_of_lt _ _ _ hcw2).symm]
      rw [hnext, hG]
      rfl
    constructor
    · rw [hrowi, imputeRow_getD _ _ _ _ (by
        rw [List.length_map, hwpad]
        omega)]
      rw [hmapC]
      norm_num
    · rw [hrowi, imputeRow_getD _ _ _ _ (by
        rw [List.length_map, hwpad]
        omega)]
      rw [hmapG]
      norm_num

/-- C2 witness: the window property evaluated for a 5-long sequence "AACGT"
at position 3 with window length 3. -/
theorem extract_seq_windows_spec_witness :
    ((3 : Nat) % 2 = 1 ∧
     (∀ p ∈ ([3] : List Int), 1 ≤ p ∧
       p ≤ ((['A', 'A', 'C', 'G', 'T'] : List Char).length : Int))) ∧
    ∃ rows, extract_seq_windows ['A', 'A', 'C', 'G', 'T'] [3] 3 1
        (fun _ _ => 0) = some rows ∧
      rows.length = ([3] : List Int).length ∧
      (∀ r ∈ rows, r.length = 3 ∧ ∀ v ∈ r, 0 ≤ v ∧ v < 4) ∧
      (∀ i, i < ([3] : List Int).length → 1 ≤ 3 / 2 →
        ((['A', 'A', 'C', 'G', 'T'] : List Char).map Char.toUpper).getD
          (([3] : List Int).getD i 0 - 1).toNat 'N' = 'C' →
        (([3] : List Int).getD i 0 - 1).toNat + 1
          < (['A', 'A', 'C', 'G', 'T'] : List Char).length →
        ((['A', 'A', 'C', 'G', 'T'] : List Char).map Char.toUpper).getD
          ((([3] : List Int).getD i 0 - 1).toNat + 1) 'N' = 'G' →
        (rows.getD i []).getD (3 / 2) 0 = 3 ∧
        (rows.getD i []).getD (3 / 2 + 1) 0 = 2) :=
  ⟨⟨by decide, by decide⟩,
    extract_seq_windows_spec ['A', 'A', 'C', 'G', 'T'] [3] 3 (fun _ _ => 0)
      (by decide) (by decide)⟩

/-- C4: for every chromosome, every canonical position whose count of
non-CpgNan cells is below the minimum coverage is dropped (the kept positions
are exactly those reaching the minimum, in order, and downstream stages see
only them); if no position survives the chromosome is skipped, not aborted;
and for the two single-cell tables {10,20,30} and {20,30,40} on one
chromosome, minimum coverage 1 keeps [10,20,30,40] and minimum coverage 2
keeps [20,30]. -/
theorem coverageFilter_spec (pos : List Int) (mat : List (List Int))
    (cpgCov : Int) (hc : ∀ row ∈ mat, 1 ≤ countValid row) :
    coverageFilter pos mat cpgCov ≠ CovResult.crash ∧
    (coverageFilter pos mat cpgCov = CovResult.skip ↔
      ((pos.zip mat).filter fun r =>
        decide (cpgCov ≤ (countValid r.2 : Int))) = []) ∧
    (∀ kp km, coverageFilter pos mat cpgCov = CovResult.keep kp km →
      kp = ((pos.zip mat).filter fun r =>
        decide (cpgCov ≤ (countValid r.2 : Int))).map Prod.fst) ∧
    chromoCoverage [CellTable.mk [10, 20, 30] [1, 1, 1],
        CellTable.mk [20, 30, 40] [1, 1, 1]] 1
      = some (CovResult.keep [10, 20, 30, 40]
          [[1, -1], [1, 1], [1, 1], [-1, 1]]) ∧
    chromoCoverage [CellTable.mk [10, 20, 30] [1, 1, 1],
        CellTable.mk [20, 30, 40] [1, 1, 1]] 2
      = some (CovResult.keep [20, 30] [[1, 1], [1, 1]]) := by
  have hall : (mat.all fun row => decide (1 ≤ countValid row)) = true := by
    rw [List.all_eq_true]
    intro row hrow
    simpa using hc row hrow
  unfold coverageFilter
  rw [if_pos hall]
  by_cases hz : ((pos.zip mat).filter fun r =>
      decide (cpgCov ≤ (countValid r.2 : Int))).length = 0
  · rw [if_pos hz]
    refine ⟨by simp, ?_, ?_, by decide, by decide⟩
    · simp only [true_iff]
      exact List.length_eq_zero.1 hz
    · intro kp km hk
      simp at hk
  · rw [if_neg hz]
    refine ⟨by simp, ?_, ?_, by decide, by decide⟩
    · constructor
      · intro hk
        simp at hk
      · intro hempty
        exact absurd (by rw [hempty]; rfl) hz
    · intro kp km hk
      injection hk with h1 h2
      exact h1.symm

/-- C4 witness: the coverage filter evaluated on a two-cell, two-position
matrix with minimum coverage 2. -/
theorem coverageFilter_spec_witness :
    (∀ row ∈ [[(1 : Int), -1], [1, 1]], 1 ≤ countValid row) ∧
    (coverageFilter [10, 20] [[(1 : Int), -1], [1, 1]] 2 ≠ CovResult.crash ∧
     (coverageFilter [10, 20] [[(1 : Int), -1], [1, 1]] 2 = CovResult.skip ↔
       ((([10, 20] : List Int).zip [[(1 : Int), -1], [1, 1]]).filter fun r =>
         decide ((2 : Int) ≤ (countValid r.2 : Int))) = []) ∧
     (∀ kp km, coverageFilter [10, 20] [[(1 : Int), -1], [1, 1]] 2
          = CovResult.keep kp km →
       kp = ((([10, 20] : List Int).zip [[(1 : Int), -1], [1, 1]]).filter
         fun r => decide ((2 : Int) ≤ (countValid r.2 : Int))).map Prod.fst) ∧
     chromoCoverage [CellTable.mk [10, 20, 30] [1, 1, 1],
         CellTable.mk [20, 30, 40] [1, 1, 1]] 1
       = some (CovResult.keep [10, 20, 30, 40]
           [[1, -1], [1, 1], [1, 1], [-1, 1]]) ∧
     chromoCoverage [CellTable.mk [10, 20, 30] [1, 1, 1],
         CellTable.mk [20, 30, 40] [1, 1, 1]] 2
       = some (CovResult.keep [20, 30] [[1, 1], [1, 1]])) :=
  ⟨by decide, coverageFilter_spec [10, 20] [[(1 : Int), -1], [1, 1]] 2
    (by decide)⟩

/-- C10 counterexample: with `--cpg_wlen 0` both the win_stats list and a
cpg_wlen are configured (both options supplied), yet the shard carries no
win_stats entries, because `opts.cpg_wlen` is falsy at line 507. -/
theorem writeShard_winStats_counterexample :
    (some [fun l : List Int => (l.length : Int)]).isSome = true ∧
    (some (0 : Int)).isSome = true ∧
    (writeShard [5] [[1]] [CellTable.mk [3] [1]] false [] 1 (fun _ _ => 0)
      (some 0) (some [fun l : List Int => (l.length : Int)]) [3]).winStats
      = none :=
  ⟨rfl, rfl, rfl⟩

/-- C10 (amended): per-window statistics datasets are written to a shard if
and only if both the win_stats statistic list and a nonzero cpg_wlen are
configured; requesting win_stats without cpg_wlen silently produces shards
without any win_stats entries rather than raising an error. -/
theorem writeShard_winStats_iff (chunkPos : List Int)
    (chunkMat : List (List Int)) (cells : List CellTable) (hasDna : Bool)
    (chromoDna : List Char) (dnaWlen : Nat) (rand : Nat → Nat → Int)
    (cpgWlen : Option Int) (winStatsMeta : Option (List (List Int → Int)))
    (winStatsWlen : List Int) :
    (writeShard chunkPos chunkMat cells hasDna chromoDna dnaWlen rand cpgWlen
        winStatsMeta winStatsWlen).winStats.isSome
      = (winStatsMeta.isSome && optTruthy cpgWlen) := by
  unfold writeShard
  by_cases h : (winStatsMeta.isSome && optTruthy cpgWlen) = true
  · rw [h]
    simp only [if_pos h]
    rfl
  · rw [Bool.not_eq_true] at h
    simp [h]

/-- C1 witness: the alignment property evaluated for a concrete sparse
series and target index. -/
theorem map_values_spec_witness :
    (([5, 7] : List Int).length = ([1, 3] : List Int).length ∧
     ([1, 3] : List Int).Pairwise (· < ·) ∧
     ([0, 1, 2, 3] : List Int).Pairwise (· < ·)) ∧
    ∃ res, map_values [5, 7] [1, 3] [0, 1, 2, 3] = some res ∧
      res.length = ([0, 1, 2, 3] : List Int).length ∧
      ∀ i, i < ([0, 1, 2, 3] : List Int).length →
        ((([0, 1, 2, 3] : List Int).getD i 0 ∈ ([1, 3] : List Int) →
          ∃ j, j < ([1, 3] : List Int).length ∧
            ([1, 3] : List Int).getD j 0 = ([0, 1, 2, 3] : List Int).getD i 0 ∧
            res.getD i 0 = ([5, 7] : List Int).getD j 0) ∧
         (([0, 1, 2, 3] : List Int).getD i 0 ∉ ([1, 3] : List Int) →
          res.getD i 0 = CPG_NAN)) :=
  ⟨⟨by decide, by decide, by decide⟩,
    map_values_spec [5, 7] [1, 3] [0, 1, 2, 3] (by decide) (by decide)
      (by decide)⟩

end DeepCpG
